import Mathlib

/-!
# Shallow embedding of `apscheduler.datastores.async_mongodb.AsyncMongoDBDataStore`

Each MongoDB collection (`tasks`, `schedules`, `jobs`, `job_results`) is
modelled as a list of documents; an absent BSON field is `Option.none`.
Timestamps are integers (a single `now` stands for the `datetime.now()`
calls inside one operation, which is the single-threaded reading of the
code).  The opaque serialized trigger is a `Nat`; the store's serializer is
modelled by a predicate `serializeOk` saying which triggers serialize
without raising `SerializationError`.

The operations (`add_schedule`, `acquire_schedules`, `release_schedules`,
`acquire_jobs`, `release_job`, `get_job_result`) are translated
line-by-line from the Python source; MongoDB primitives
(`find_one_and_update`, `delete_one`, `update_many`, `insert_one`,
`bulk_write`, sorted `find`) are given their documented semantics on the
document lists (`find_one_and_update` / `delete_one` touch the first
match; `update_many` touches every match; a sorted `find` is a stable
sort of the matching documents).
-/

namespace MongoStore

/-- A document of the `tasks` collection (`_id`, `max_running_jobs`,
`running_jobs`).  `max_running_jobs = none` means no cap. -/
structure TaskDoc where
  id : String
  maxRunningJobs : Option Int
  runningJobs : Int
  deriving DecidableEq, Repr

/-- A document of the `schedules` collection.  `acquiredBy`/`acquiredUntil`
being `none` models the field being absent (`$exists: False`), which is how
the store leaves it after `$unset`. -/
structure ScheduleDoc where
  id : String
  taskId : String
  trigger : Nat
  nextFireTime : Option Int
  acquiredBy : Option String
  acquiredUntil : Option Int
  deriving DecidableEq, Repr

/-- A document of the `jobs` collection. -/
structure JobDoc where
  id : Nat
  taskId : String
  createdAt : Int
  startedAt : Option Int
  acquiredBy : Option String
  acquiredUntil : Option Int
  lockExpirationDelay : Option Int
  deriving DecidableEq, Repr

/-- A document of the `job_results` collection (`_id` is the job id). -/
structure JobResultDoc where
  jobId : Nat
  outcome : Nat
  finishedAt : Int
  expiresAt : Int
  deriving DecidableEq, Repr

/-- The whole data store: the four collections plus the store-level
configuration (`lock_expiration_delay` and the serializer, modelled by
which triggers serialize successfully). -/
structure DataStore where
  tasks : List TaskDoc
  schedules : List ScheduleDoc
  jobs : List JobDoc
  jobResults : List JobResultDoc
  lockExpirationDelay : Int
  serializeOk : Nat → Bool

/-- Events published to the event broker, restricted to the kinds the
modelled operations emit. -/
inductive Event where
  | scheduleAdded (scheduleId : String) (nextFireTime : Option Int)
  | scheduleUpdated (scheduleId : String) (nextFireTime : Option Int)
  | scheduleRemoved (scheduleId : String)
  | jobAcquired (jobId : Nat) (workerId : String)
  deriving DecidableEq, Repr

/-- Log records produced by `release_job` (`logging.exception` /
`logging.error` calls that swallow an anomaly instead of raising). -/
inductive LogEntry where
  | duplicateResult (jobId : Nat)
  | jobNotFound (jobId : Nat)
  deriving DecidableEq, Repr

/-- `ConflictPolicy` from `apscheduler._enums`: `exception` (the "fail"
policy), `replace`, and `do_nothing` (the branch the code's `if` chain
falls through to). -/
inductive ConflictPolicy where
  | exception
  | replace
  | doNothing
  deriving DecidableEq, Repr

/-- Errors surfaced to the caller by the modelled operations. -/
inductive StoreError where
  | conflictingId (scheduleId : String)
  deriving DecidableEq, Repr

/-! ## `get_job_result` -/

/-- `find_one_and_delete({"_id": job_id})` on `job_results`: return the
first document whose `_id` matches (if any) together with the collection
with that document removed. -/
def findOneAndDeleteResult (jobId : Nat) :
    List JobResultDoc → Option JobResultDoc × List JobResultDoc
  | [] => (none, [])
  | r :: rs =>
    if r.jobId = jobId then (some r, rs)
    else
      let (found, rest) := findOneAndDeleteResult jobId rs
      (found, r :: rest)

/-- `get_job_result(job_id)`: a `find_one_and_delete` on the
`job_results` collection; returns the deleted document (if any). -/
def getJobResult (st : DataStore) (jobId : Nat) : DataStore × Option JobResultDoc :=
  let (found, rest) := findOneAndDeleteResult jobId st.jobResults
  ({ st with jobResults := rest }, found)

/-! ## `release_job` -/

/-- `delete_one({"_id": job_id})` on `jobs`: remove the first matching
document, returning the deleted count (0 or 1) and the new collection. -/
def deleteOneJob (jobId : Nat) : List JobDoc → Nat × List JobDoc
  | [] => (0, [])
  | j :: js =>
    if j.id = jobId then (1, js)
    else
      let (n, rest) := deleteOneJob jobId js
      (n, j :: rest)

/-- `find_one_and_update({"_id": task_id}, {"$inc": {"running_jobs": delta}})`:
apply the increment to the first task document with the given id. -/
def incRunningJobs (taskId : String) (delta : Int) : List TaskDoc → List TaskDoc
  | [] => []
  | t :: ts =>
    if t.id = taskId then { t with runningJobs := t.runningJobs + delta } :: ts
    else t :: incRunningJobs taskId delta ts

/-- Does the `job_results` collection already hold a document with this
`_id`?  (`insert_one` raises `DuplicateKeyError` exactly in that case.) -/
def hasResult (results : List JobResultDoc) (jobId : Nat) : Bool :=
  results.any fun r => r.jobId = jobId

/-- `release_job(worker_id, task_id, result)`: store the result when it
has not already expired (`expires_at > finished_at`), swallowing a
`DuplicateKeyError` with a log record; delete the job by `_id`; decrement
the task's `running_jobs` by the deleted count only when the delete
removed something, otherwise log the anomaly.  The `worker_id` argument
is unused by the source's filters. -/
def releaseJob (st : DataStore) (_workerId : String) (taskId : String)
    (result : JobResultDoc) : DataStore × List LogEntry :=
  let (results', log₁) :=
    if result.expiresAt > result.finishedAt then
      if hasResult st.jobResults result.jobId then
        (st.jobResults, [LogEntry.duplicateResult result.jobId])
      else
        (st.jobResults ++ [result], [])
    else
      (st.jobResults, [])
  let (deletedCount, jobs') := deleteOneJob result.jobId st.jobs
  let (tasks', log₂) :=
    if deletedCount > 0 then
      (incRunningJobs taskId (-(deletedCount : Int)) st.tasks, [])
    else
      (st.tasks, [LogEntry.jobNotFound result.jobId])
  ({ st with jobResults := results', jobs := jobs', tasks := tasks' },
    log₁ ++ log₂)

/-! ## `add_schedule` -/

/-- Does the `schedules` collection hold a document with this `_id`?
(`insert_one` raises `DuplicateKeyError` exactly in that case.) -/
def hasSchedule (st : DataStore) (scheduleId : String) : Bool :=
  st.schedules.any fun d => d.id = scheduleId

/-- `replace_one({"_id": s.id}, document, True)`: replace the first
document with matching `_id`; upsert (append) when there is none. -/
def replaceOneSchedule (s : ScheduleDoc) : List ScheduleDoc → List ScheduleDoc
  | [] => [s]
  | d :: ds => if d.id = s.id then s :: ds else d :: replaceOneSchedule s ds

/-- `add_schedule(schedule, conflict_policy)`: try `insert_one`; on
`DuplicateKeyError` dispatch on the conflict policy — raise
`ConflictingIdError` under `exception`, `replace_one` + `ScheduleUpdated`
event under `replace`, and fall through silently otherwise; on a clean
insert publish `ScheduleAdded`. -/
def addSchedule (st : DataStore) (s : ScheduleDoc) (policy : ConflictPolicy) :
    DataStore × List Event × Option StoreError :=
  if hasSchedule st s.id then
    if policy = ConflictPolicy.exception then
      (st, [], some (StoreError.conflictingId s.id))
    else if policy = ConflictPolicy.replace then
      ({ st with schedules := replaceOneSchedule s st.schedules },
        [Event.scheduleUpdated s.id s.nextFireTime], none)
    else
      (st, [], none)
  else
    ({ st with schedules := st.schedules ++ [s] },
      [Event.scheduleAdded s.id s.nextFireTime], none)

/-! ## `acquire_schedules` -/

/-- The `acquire_schedules` find query:
`$and: [next_fire_time ≠ null, next_fire_time < now]` together with
`$or: [acquired_until absent, acquired_until < now]`. -/
def scheduleEligible (now : Int) (s : ScheduleDoc) : Bool :=
  (match s.nextFireTime with
    | some t => decide (t < now)
    | none => false)
  && (match s.acquiredUntil with
    | none => true
    | some u => decide (u < now))

/-- The sort key of `.sort("next_fire_time")` (every document the query
returns has a non-null `next_fire_time`). -/
def schedNftLe (a b : ScheduleDoc) : Prop :=
  a.nextFireTime.getD 0 ≤ b.nextFireTime.getD 0

instance : DecidableRel schedNftLe :=
  fun a b => inferInstanceAs (Decidable (_ ≤ _))

instance : IsTotal ScheduleDoc schedNftLe :=
  ⟨fun _ _ => le_total _ _⟩

instance : IsTrans ScheduleDoc schedNftLe :=
  ⟨fun _ _ _ => le_trans⟩

/-- Mongo's `.limit(n)`: `n = 0` means "no limit". -/
def applyLimit (limit : Option Nat) (l : List α) : List α :=
  match limit with
  | none => l
  | some 0 => l
  | some n => l.take n

/-- `acquire_schedules(scheduler_id, limit)`: fetch the eligible
schedules sorted ascending by `next_fire_time` up to `limit`, then
`update_many` stamps `acquired_by`/`acquired_until` on every fetched id;
the fetched (pre-stamp) documents are returned. -/
def acquireSchedules (st : DataStore) (schedulerId : String) (limit : Nat)
    (now : Int) : DataStore × List ScheduleDoc :=
  let fetched :=
    applyLimit (some limit)
      (List.insertionSort schedNftLe (st.schedules.filter (scheduleEligible now)))
  if fetched = [] then (st, fetched)
  else
    let acquiredUntil := now + st.lockExpirationDelay
    let ids : List String := fetched.map (·.id)
    let schedules' := st.schedules.map fun d =>
      if d.id ∈ ids then
        { d with acquiredBy := some schedulerId, acquiredUntil := some acquiredUntil }
      else d
    ({ st with schedules := schedules' }, fetched)

/-! ## `release_schedules` -/

/-- A request queued for the `bulk_write` in `release_schedules`.  Both
kinds carry the compound filter
`{"_id": scheduleId, "acquired_by": ownerId}`. -/
inductive WriteRequest where
  | updateOne (scheduleId : String) (ownerId : String) (trigger : Nat)
      (nextFireTime : Int)
  | deleteOne (scheduleId : String) (ownerId : String)
  deriving DecidableEq, Repr

/-- Does a schedule document match the compound release filter? -/
def releaseFilterMatch (scheduleId ownerId : String) (d : ScheduleDoc) : Bool :=
  d.id = scheduleId && d.acquiredBy = some ownerId

/-- `UpdateOne(filters, {"$unset": lease fields, "$set": trigger/nft})`:
rewrite the first document matching the compound filter. -/
def applyUpdateOne (scheduleId ownerId : String) (trigger : Nat)
    (nextFireTime : Int) : List ScheduleDoc → List ScheduleDoc
  | [] => []
  | d :: ds =>
    if releaseFilterMatch scheduleId ownerId d then
      { d with acquiredBy := none, acquiredUntil := none, trigger := trigger,
               nextFireTime := some nextFireTime } :: ds
    else d :: applyUpdateOne scheduleId ownerId trigger nextFireTime ds

/-- `DeleteOne(filters)`: drop the first document matching the compound
filter. -/
def applyDeleteOne (scheduleId ownerId : String) :
    List ScheduleDoc → List ScheduleDoc
  | [] => []
  | d :: ds =>
    if releaseFilterMatch scheduleId ownerId d then ds
    else d :: applyDeleteOne scheduleId ownerId ds

/-- Apply one queued request to the `schedules` collection. -/
def applyRequest (req : WriteRequest) (l : List ScheduleDoc) : List ScheduleDoc :=
  match req with
  | WriteRequest.updateOne sid owner trig nft => applyUpdateOne sid owner trig nft l
  | WriteRequest.deleteOne sid owner => applyDeleteOne sid owner l

/-- The request-building loop of `release_schedules`: one request per
input schedule — `UpdateOne` (re-arm) when the schedule still has a
`next_fire_time` and its trigger serializes, `DeleteOne` (retire) when
`next_fire_time` is `None` or serialization raises.  Also accumulates
`updated_schedules` (id, next fire time) and `finished_schedule_ids`. -/
def releaseRequests (serOk : Nat → Bool) (schedulerId : String) :
    List ScheduleDoc → List WriteRequest × List (String × Int) × List String
  | [] => ([], [], [])
  | s :: rest =>
    let prev := releaseRequests serOk schedulerId rest
    match s.nextFireTime with
    | some nft =>
      if serOk s.trigger then
        (WriteRequest.updateOne s.id schedulerId s.trigger nft :: prev.1,
          (s.id, nft) :: prev.2.1, prev.2.2)
      else
        (WriteRequest.deleteOne s.id schedulerId :: prev.1, prev.2.1, s.id :: prev.2.2)
    | none =>
      (WriteRequest.deleteOne s.id schedulerId :: prev.1, prev.2.1, s.id :: prev.2.2)

/-- `release_schedules(scheduler_id, schedules)`: build the requests,
apply them (the source re-runs the growing request list after each
iteration, but a re-applied request's compound filter can no longer
match — the lease fields it keyed on were just unset or the document
deleted — so the net effect equals one ordered application), then publish
one `ScheduleUpdated` event per re-armed input followed by one
`ScheduleRemoved` event per retired input. -/
def releaseSchedules (st : DataStore) (schedulerId : String)
    (given : List ScheduleDoc) : DataStore × List Event :=
  let reqs := releaseRequests st.serializeOk schedulerId given
  let schedules' := reqs.1.foldl (fun l r => applyRequest r l) st.schedules
  let events :=
    reqs.2.1.map (fun p => Event.scheduleUpdated p.1 (some p.2))
      ++ reqs.2.2.map Event.scheduleRemoved
  ({ st with schedules := schedules' }, events)

/-! ## `acquire_jobs` -/

/-- The `acquire_jobs` base query:
`$or: [acquired_until absent, acquired_until < now]`. -/
def jobLeaseFree (now : Int) (j : JobDoc) : Bool :=
  match j.acquiredUntil with
  | none => true
  | some u => decide (u < now)

/-- The full query, with the optional
`$and: [..., task_id $nin ignored_tasks]` clause. -/
def jobQueryMatch (now : Int) (ignoredTasks : Option (List String))
    (j : JobDoc) : Bool :=
  jobLeaseFree now j
    && (match ignoredTasks with
      | some ts => decide (j.taskId ∉ ts)
      | none => true)

/-- The sort key of `sort=[("created_at", ASCENDING)]`. -/
def jobCreatedLe (a b : JobDoc) : Prop :=
  a.createdAt ≤ b.createdAt

instance : DecidableRel jobCreatedLe :=
  fun a b => inferInstanceAs (Decidable (_ ≤ _))

instance : IsTotal JobDoc jobCreatedLe :=
  ⟨fun _ _ => le_total _ _⟩

instance : IsTrans JobDoc jobCreatedLe :=
  ⟨fun _ _ _ => le_trans⟩

/-- The `job_slots_left` dictionary right after the task-limits query:
defined (only) for tasks that exist and have a cap, with value
`max_running_jobs - running_jobs`.  (`find_one` reads the first document
with the given `_id`.) -/
def slotsLeft0 (st : DataStore) (taskId : String) : Option Int :=
  match st.tasks.find? (fun t => t.id = taskId) with
  | some t =>
    match t.maxRunningJobs with
    | some m => some (m - t.runningJobs)
    | none => none
  | none => none

/-- Functional update of the `job_slots_left` dictionary. -/
def updateSlots (slots : String → Option Int) (taskId : String) (v : Int) :
    String → Option Int :=
  fun x => if x = taskId then some v else slots x

/-- The admission loop of `acquire_jobs`: walk the candidate pool in
order; a job whose task has exactly `0` slots left is skipped; any other
job is admitted, decrementing its task's slot entry when one exists. -/
def admitJobs (slots : String → Option Int) : List JobDoc → List JobDoc
  | [] => []
  | j :: js =>
    match slots j.taskId with
    | some k =>
      if k = 0 then admitJobs slots js
      else j :: admitJobs (updateSlots slots j.taskId (k - 1)) js
    | none => j :: admitJobs slots js

/-- Python's `job.lock_expiration_delay or self.lock_expiration_delay`:
`None` and `0` both fall back to the store default. -/
def effectiveDelay (jobDelay : Option Int) (storeDelay : Int) : Int :=
  match jobDelay with
  | some v => if v = 0 then storeDelay else v
  | none => storeDelay

/-- `find_one_and_update({"_id": jid}, ...)` on `jobs`: rewrite the first
document with the given `_id`. -/
def updateFirstJob (jid : Nat) (f : JobDoc → JobDoc) : List JobDoc → List JobDoc
  | [] => []
  | d :: ds => if d.id = jid then f d :: ds else d :: updateFirstJob jid f ds

/-- The `$set` of the per-job stamping write: `acquired_by`,
`acquired_until = now + effective delay`, `started_at = now`. -/
def stampJob (workerId : String) (now : Int) (storeDelay : Int) (j : JobDoc)
    (d : JobDoc) : JobDoc :=
  { d with acquiredBy := some workerId,
           acquiredUntil := some (now + effectiveDelay j.lockExpirationDelay storeDelay),
           startedAt := some now }

/-- The candidate pool fetched by `acquire_jobs`: lease-free documents
(optionally excluding ignored task ids), FIFO by `created_at`, up to
`limit`. -/
def candidateJobs (st : DataStore) (limit : Option Nat)
    (ignoredTasks : Option (List String)) (now : Int) : List JobDoc :=
  applyLimit limit
    (List.insertionSort jobCreatedLe (st.jobs.filter (jobQueryMatch now ignoredTasks)))

/-- `acquire_jobs(worker_id, limit, ignored_tasks)`: fetch the candidate
pool, read the capped tasks' slot counts, run the admission loop, stamp
every admitted job's document, and `$inc` each admitted job's task
counter (the source batches the increments per task id through the
`increments` dict; `$inc` by the per-task count equals one `$inc` by 1
per admitted job of that task, both landing on the first document with
that `_id`).  Returns the admitted (pre-stamp) documents and one
`JobAcquired` event per admitted job. -/
def acquireJobs (st : DataStore) (workerId : String) (limit : Option Nat)
    (ignoredTasks : Option (List String)) (now : Int) :
    DataStore × List JobDoc × List Event :=
  let pool := candidateJobs st limit ignoredTasks now
  let acquired := admitJobs (slotsLeft0 st) pool
  let jobs' :=
    acquired.foldl
      (fun l j => updateFirstJob j.id (stampJob workerId now st.lockExpirationDelay j) l)
      st.jobs
  let tasks' := acquired.foldl (fun ts j => incRunningJobs j.taskId 1 ts) st.tasks
  ({ st with jobs := jobs', tasks := tasks' }, acquired,
    acquired.map fun j => Event.jobAcquired j.id workerId)

/-! ## Helper lemmas: `find_one_and_delete` on `job_results` -/

theorem findOneAndDeleteResult_fst (jobId : Nat) (l : List JobResultDoc) :
    (findOneAndDeleteResult jobId l).1 = l.find? (fun r => r.jobId = jobId) := by
  induction l with
  | nil => rfl
  | cons r rs ih =>
    by_cases h : r.jobId = jobId
    · simp [findOneAndDeleteResult, List.find?, h]
    · simp [findOneAndDeleteResult, List.find?, h, ih]

theorem findOneAndDeleteResult_snd (jobId : Nat) (l : List JobResultDoc) :
    (findOneAndDeleteResult jobId l).2 = l.eraseP (fun r => r.jobId = jobId) := by
  induction l with
  | nil => rfl
  | cons r rs ih =>
    by_cases h : r.jobId = jobId
    · simp [findOneAndDeleteResult, h, List.eraseP_cons]
    · simp [findOneAndDeleteResult, h, List.eraseP_cons, ih]

theorem find?_eraseP_of_nodup (jobId : Nat) (l : List JobResultDoc)
    (h : (l.map (fun r => r.jobId)).Nodup) :
    (l.eraseP (fun r => r.jobId = jobId)).find? (fun r => r.jobId = jobId) = none := by
  induction l with
  | nil => rfl
  | cons r rs ih =>
    simp only [List.map_cons, List.nodup_cons] at h
    by_cases hr : r.jobId = jobId
    · rw [List.eraseP_cons_of_pos (by simpa using hr)]
      refine List.find?_eq_none.mpr fun x hx => ?_
      simp only [decide_eq_true_eq]
      intro hx'
      exact h.1 (by rw [hr, ← hx']; exact List.mem_map_of_mem _ hx)
    · rw [List.eraseP_cons_of_neg (by simpa using hr)]
      have hd : (decide (r.jobId = jobId)) = false := by simpa using hr
      simp only [List.find?_cons, hd]
      exact ih h.2

/-! ## C6: job results are single-use -/

/-- **C6.** `get_job_result` returns the stored result for the job id
(`none`, with no error, when none was ever stored), deletes it in the
same operation, and therefore a second `get_job_result` for the same id
returns `none`. -/
theorem getJobResult_single_use (st : DataStore) (jobId : Nat)
    (h : (st.jobResults.map (fun r => r.jobId)).Nodup) :
    (getJobResult st jobId).2 = st.jobResults.find? (fun r => r.jobId = jobId)
      ∧ (getJobResult st jobId).1.jobResults
          = st.jobResults.eraseP (fun r => r.jobId = jobId)
      ∧ (getJobResult (getJobResult st jobId).1 jobId).2 = none := by
  refine ⟨?_, ?_, ?_⟩
  · simpa [getJobResult] using findOneAndDeleteResult_fst jobId st.jobResults
  · simpa [getJobResult] using findOneAndDeleteResult_snd jobId st.jobResults
  · show (findOneAndDeleteResult jobId _).1 = none
    rw [findOneAndDeleteResult_fst]
    show ((findOneAndDeleteResult jobId st.jobResults).2.find? _) = none
    rw [findOneAndDeleteResult_snd]
    exact find?_eraseP_of_nodup jobId st.jobResults h

/-- Witness for C6 on a concrete store holding one result for job 1. -/
theorem getJobResult_single_use_witness :
    let st : DataStore :=
      { tasks := [], schedules := [], jobs := [],
        jobResults := [{ jobId := 1, outcome := 0, finishedAt := 5, expiresAt := 9 }],
        lockExpirationDelay := 10, serializeOk := fun _ => true }
    (getJobResult st 1).2 = st.jobResults.find? (fun r => r.jobId = 1)
      ∧ (getJobResult st 1).1.jobResults = st.jobResults.eraseP (fun r => r.jobId = 1)
      ∧ (getJobResult (getJobResult st 1).1 1).2 = none :=
  getJobResult_single_use _ 1 (by decide)

/-! ## C7: result persistence in `release_job` -/

/-- **C7.** `release_job` appends the result to `job_results` exactly
when it is not already expired (`expires_at > finished_at`) and no result
for the job id is stored yet; when a result for the id is already stored
the duplicate-key condition is logged (and, the model being total, not
propagated), leaving `job_results` unchanged — results are write-once.
An already-expired result never reaches the collection. -/
theorem releaseJob_result_persistence (st : DataStore) (workerId taskId : String)
    (result : JobResultDoc) :
    (releaseJob st workerId taskId result).1.jobResults
        = (if result.expiresAt > result.finishedAt
              ∧ hasResult st.jobResults result.jobId = false
           then st.jobResults ++ [result] else st.jobResults)
      ∧ (LogEntry.duplicateResult result.jobId ∈ (releaseJob st workerId taskId result).2
          ↔ result.expiresAt > result.finishedAt
              ∧ hasResult st.jobResults result.jobId = true) := by
  by_cases h1 : result.expiresAt > result.finishedAt
  · by_cases h2 : hasResult st.jobResults result.jobId
    · simp [releaseJob, h1, h2]
    · simp [releaseJob, h1, h2]
      rcases deleteOneJob result.jobId st.jobs with ⟨n, rest⟩
      by_cases h3 : n > 0 <;> simp [h3]
  · simp [releaseJob, h1]
    rcases deleteOneJob result.jobId st.jobs with ⟨n, rest⟩
    by_cases h3 : n > 0 <;> simp [h3]

/-! ## Helper lemmas: `delete_one` on `jobs` -/

theorem deleteOneJob_fst (jobId : Nat) (l : List JobDoc) :
    (deleteOneJob jobId l).1
      = (if l.any (fun j => j.id = jobId) then 1 else 0) := by
  induction l with
  | nil => rfl
  | cons j js ih =>
    by_cases h : j.id = jobId
    · simp [deleteOneJob, h]
    · simp [deleteOneJob, h, ih]

theorem deleteOneJob_snd_sublist (jobId : Nat) (l : List JobDoc) :
    List.Sublist (deleteOneJob jobId l).2 l := by
  induction l with
  | nil => exact List.Sublist.refl _
  | cons j js ih =>
    by_cases h : j.id = jobId
    · simp only [deleteOneJob, if_pos h]
      exact List.sublist_cons_self j js
    · simp only [deleteOneJob, if_neg h]
      exact List.Sublist.cons₂ j ih

/-! ## C8: counter decrement is tied to the job delete -/

/-- **C8.** In `release_job` the task counter is touched exactly when the
job delete removed a document: the delete removes at most one document
(one iff a job with the result's id exists), the counter is decremented
by exactly the deleted count via `$inc`, and a zero-row delete is logged
(`jobNotFound`) with the decrement skipped and no error raised (the model
is total). -/
theorem releaseJob_decrement_iff_deleted (st : DataStore) (workerId taskId : String)
    (result : JobResultDoc) :
    (deleteOneJob result.jobId st.jobs).1
        = (if st.jobs.any (fun j => j.id = result.jobId) then 1 else 0)
      ∧ (releaseJob st workerId taskId result).1.jobs
          = (deleteOneJob result.jobId st.jobs).2
      ∧ (releaseJob st workerId taskId result).1.tasks
          = (if (deleteOneJob result.jobId st.jobs).1 > 0
             then incRunningJobs taskId (-((deleteOneJob result.jobId st.jobs).1 : Int)) st.tasks
             else st.tasks)
      ∧ (LogEntry.jobNotFound result.jobId ∈ (releaseJob st workerId taskId result).2
          ↔ (deleteOneJob result.jobId st.jobs).1 = 0) := by
  refine ⟨deleteOneJob_fst _ _, ?_⟩
  by_cases h3 : (deleteOneJob result.jobId st.jobs).1 > 0
  · have h0 : ¬(deleteOneJob result.jobId st.jobs).1 = 0 := by omega
    by_cases h1 : result.expiresAt > result.finishedAt
    · by_cases h2 : hasResult st.jobResults result.jobId
        <;> simp [releaseJob, h1, h2, h3, h0]
    · simp [releaseJob, h1, h3, h0]
  · have h0 : (deleteOneJob result.jobId st.jobs).1 = 0 := by omega
    by_cases h1 : result.expiresAt > result.finishedAt
    · by_cases h2 : hasResult st.jobResults result.jobId
        <;> simp [releaseJob, h1, h2, h3, h0]
    · simp [releaseJob, h1, h3, h0]

/-! ## C4: `add_schedule` conflict policy -/

/-- **C4.** `add_schedule` under an id conflict: with the `exception`
("fail") policy it surfaces `ConflictingIdError`, mutates nothing and
emits no event; with `replace` it overwrites the existing record and
emits exactly one `ScheduleUpdated` event carrying the new
`next_fire_time`; with any other policy the insert is dropped silently
(no overwrite, no error, no event).  Without a conflict the schedule is
inserted and exactly one `ScheduleAdded` event is emitted. -/
theorem addSchedule_conflict_policy (st : DataStore) (s : ScheduleDoc)
    (policy : ConflictPolicy) :
    (addSchedule st s policy).2.2
        = (if hasSchedule st s.id = true ∧ policy = ConflictPolicy.exception
           then some (StoreError.conflictingId s.id) else none)
      ∧ (addSchedule st s policy).2.1
          = (if hasSchedule st s.id = false
             then [Event.scheduleAdded s.id s.nextFireTime]
             else if policy = ConflictPolicy.replace
               then [Event.scheduleUpdated s.id s.nextFireTime]
               else [])
      ∧ (addSchedule st s policy).1.schedules
          = (if hasSchedule st s.id = false
             then st.schedules ++ [s]
             else if policy = ConflictPolicy.replace
               then replaceOneSchedule s st.schedules
               else st.schedules) := by
  by_cases hc : hasSchedule st s.id
  · cases policy <;> simp [addSchedule, hc]
  · simp [addSchedule, hc]

/-! ## Helper lemmas: the release filter never touches unowned documents -/

/-- The owner id carried by a queued write request's compound filter. -/
def reqOwnerId : WriteRequest → String
  | WriteRequest.updateOne _ o _ _ => o
  | WriteRequest.deleteOne _ o => o

theorem mem_applyUpdateOne_of_unowned (scheduleId ownerId : String) (trigger : Nat)
    (nft : Int) (l : List ScheduleDoc) (d : ScheduleDoc) (hd : d ∈ l)
    (hm : d.acquiredBy ≠ some ownerId) :
    d ∈ applyUpdateOne scheduleId ownerId trigger nft l := by
  induction l with
  | nil => cases hd
  | cons e es ih =>
    by_cases he : releaseFilterMatch scheduleId ownerId e
    · simp only [applyUpdateOne, if_pos he]
      rcases List.mem_cons.mp hd with rfl | hd'
      · have he' := he
        simp only [releaseFilterMatch, Bool.and_eq_true, decide_eq_true_eq] at he'
        exact absurd he'.2 hm
      · exact List.mem_cons_of_mem _ hd'
    · simp only [applyUpdateOne, if_neg he]
      rcases List.mem_cons.mp hd with rfl | hd'
      · exact List.mem_cons_self _ _
      · exact List.mem_cons_of_mem _ (ih hd')

theorem mem_applyDeleteOne_of_unowned (scheduleId ownerId : String)
    (l : List ScheduleDoc) (d : ScheduleDoc) (hd : d ∈ l)
    (hm : d.acquiredBy ≠ some ownerId) :
    d ∈ applyDeleteOne scheduleId ownerId l := by
  induction l with
  | nil => cases hd
  | cons e es ih =>
    by_cases he : releaseFilterMatch scheduleId ownerId e
    · simp only [applyDeleteOne, if_pos he]
      rcases List.mem_cons.mp hd with rfl | hd'
      · have he' := he
        simp only [releaseFilterMatch, Bool.and_eq_true, decide_eq_true_eq] at he'
        exact absurd he'.2 hm
      · exact hd'
    · simp only [applyDeleteOne, if_neg he]
      rcases List.mem_cons.mp hd with rfl | hd'
      · exact List.mem_cons_self _ _
      · exact List.mem_cons_of_mem _ (ih hd')

theorem mem_applyRequest_of_unowned (req : WriteRequest) (l : List ScheduleDoc)
    (d : ScheduleDoc) (hd : d ∈ l) (hm : d.acquiredBy ≠ some (reqOwnerId req)) :
    d ∈ applyRequest req l := by
  cases req with
  | updateOne sid o trig nft => exact mem_applyUpdateOne_of_unowned _ _ _ _ _ _ hd hm
  | deleteOne sid o => exact mem_applyDeleteOne_of_unowned _ _ _ _ hd hm

theorem releaseRequests_owner (serOk : Nat → Bool) (schedulerId : String)
    (gs : List ScheduleDoc) :
    ∀ req ∈ (releaseRequests serOk schedulerId gs).1, reqOwnerId req = schedulerId := by
  induction gs with
  | nil => intro req h; cases h
  | cons s rest ih =>
    intro req h
    rcases hn : s.nextFireTime with _ | nft
    · simp only [releaseRequests, hn] at h
      rcases List.mem_cons.mp h with rfl | h'
      · rfl
      · exact ih req h'
    · by_cases hs : serOk s.trigger
      · simp only [releaseRequests, hn, if_pos hs] at h
        rcases List.mem_cons.mp h with rfl | h'
        · rfl
        · exact ih req h'
      · simp only [releaseRequests, hn, if_neg hs] at h
        rcases List.mem_cons.mp h with rfl | h'
        · rfl
        · exact ih req h'

theorem mem_foldl_applyRequest_of_unowned (reqs : List WriteRequest)
    (l : List ScheduleDoc) (d : ScheduleDoc) (ownerId : String)
    (hown : ∀ req ∈ reqs, reqOwnerId req = ownerId) (hd : d ∈ l)
    (hm : d.acquiredBy ≠ some ownerId) :
    d ∈ reqs.foldl (fun acc r => applyRequest r acc) l := by
  induction reqs generalizing l with
  | nil => exact hd
  | cons r rs ih =>
    simp only [List.foldl_cons]
    refine ih _ (fun q hq => hown q (List.mem_cons_of_mem _ hq)) ?_
    refine mem_applyRequest_of_unowned r l d hd ?_
    rw [hown r (List.mem_cons_self _ _)]
    exact hm

/-! ## C1: stale releases and the ownership filter -/

/-- **C1 (amended).** The release ownership guard holds for
`release_schedules`: every write it queues carries the compound filter
`(_id = item.id AND acquired_by = scheduler_id)`, so any stored document
whose `acquired_by` differs from the releasing owner survives completely
unaltered.  `release_job`, by contrast, ignores the releasing worker's
id entirely (its delete is keyed by `_id` alone): its outcome is
identical for any two worker ids. -/
theorem release_ownership_guard :
    (∀ (st : DataStore) (schedulerId : String) (given : List ScheduleDoc)
        (d : ScheduleDoc), d ∈ st.schedules → d.acquiredBy ≠ some schedulerId →
        d ∈ (releaseSchedules st schedulerId given).1.schedules)
      ∧ ∀ (st : DataStore) (w w' taskId : String) (result : JobResultDoc),
          releaseJob st w taskId result = releaseJob st w' taskId result := by
  constructor
  · intro st schedulerId given d hd hm
    exact mem_foldl_applyRequest_of_unowned _ _ _ _
      (releaseRequests_owner st.serializeOk schedulerId given) hd hm
  · intro st w w' taskId result
    rfl

/-- Witness for C1 on concrete inputs: a schedule leased by "B" survives
a stale release by "A" untouched, and `release_job`'s outcome does not
depend on the releasing worker id. -/
theorem release_ownership_guard_witness :
    (let d : ScheduleDoc :=
       { id := "s1", taskId := "t1", trigger := 0, nextFireTime := some 4,
         acquiredBy := some "B", acquiredUntil := some 9 }
     let st : DataStore :=
       { tasks := [], schedules := [d], jobs := [], jobResults := [],
         lockExpirationDelay := 10, serializeOk := fun _ => true }
     d ∈ (releaseSchedules st "A" [d]).1.schedules)
      ∧ (let st : DataStore :=
           { tasks := [], schedules := [], jobs := [], jobResults := [],
             lockExpirationDelay := 10, serializeOk := fun _ => true }
         let result : JobResultDoc :=
           { jobId := 1, outcome := 0, finishedAt := 3, expiresAt := 7 }
         releaseJob st "A" "t1" result = releaseJob st "B" "t1" result) :=
  ⟨release_ownership_guard.1 _ "A" _ _ (by decide) (by decide),
    release_ownership_guard.2 _ "A" "B" "t1" _⟩

/-- Counterexample to C1 as stated: `release_job` called by worker "A"
deletes a job whose stored `acquired_by` is "B" and decrements the task
counter — the stale release does clobber the newer holder's state. -/
theorem releaseJob_ignores_owner_counterexample :
    let j : JobDoc :=
      { id := 1, taskId := "t1", createdAt := 0, startedAt := none,
        acquiredBy := some "B", acquiredUntil := some 100,
        lockExpirationDelay := none }
    let st : DataStore :=
      { tasks := [{ id := "t1", maxRunningJobs := some 2, runningJobs := 1 }],
        schedules := [], jobs := [j], jobResults := [],
        lockExpirationDelay := 10, serializeOk := fun _ => true }
    let result : JobResultDoc :=
      { jobId := 1, outcome := 0, finishedAt := 10, expiresAt := 5 }
    j.acquiredBy = some "B" ∧ ("A" : String) ≠ "B"
      ∧ (releaseJob st "A" "t1" result).1.jobs = []
      ∧ (releaseJob st "A" "t1" result).1.tasks
          = [{ id := "t1", maxRunningJobs := some 2, runningJobs := 0 }] := by
  refine ⟨rfl, by decide, rfl, ?_⟩
  show incRunningJobs "t1" (-(1 : Int)) _ = _
  simp [incRunningJobs]

/-! ## Helper lemmas: `acquire_schedules` -/

theorem applyLimit_nil (limit : Option Nat) : applyLimit limit ([] : List α) = [] := by
  cases limit with
  | none => rfl
  | some n => cases n with
    | zero => rfl
    | succ k => simp [applyLimit]

theorem applyLimit_some_pos (n : Nat) (hn : 0 < n) (l : List α) :
    applyLimit (some n) l = l.take n := by
  cases n with
  | zero => omega
  | succ k => rfl

theorem acquireSchedules_snd (st : DataStore) (schedulerId : String) (limit : Nat)
    (now : Int) :
    (acquireSchedules st schedulerId limit now).2
      = applyLimit (some limit)
          (List.insertionSort schedNftLe (st.schedules.filter (scheduleEligible now))) := by
  simp only [acquireSchedules]
  split <;> rfl

theorem acquireSchedules_fst (st : DataStore) (schedulerId : String) (limit : Nat)
    (now : Int) :
    (acquireSchedules st schedulerId limit now).1.schedules
      = (if applyLimit (some limit)
            (List.insertionSort schedNftLe (st.schedules.filter (scheduleEligible now))) = []
         then st.schedules
         else st.schedules.map fun d =>
           if d.id ∈ (applyLimit (some limit)
               (List.insertionSort schedNftLe
                 (st.schedules.filter (scheduleEligible now)))).map (·.id) then
             { d with acquiredBy := some schedulerId,
                      acquiredUntil := some (now + st.lockExpirationDelay) }
           else d) := by
  simp only [acquireSchedules]
  split <;> simp_all

/-! ## C2: `acquire_schedules` returns the due, unleased schedules -/

/-- **C2 (amended).** `acquire_schedules` returns exactly the eligible
schedules — `next_fire_time` non-null and *strictly earlier than* now
(the source uses `$lt`, not `≤`), and either no lease (`acquired_until`
absent) or a lease that expired strictly before now — up to `limit` of
them, sorted ascending by `next_fire_time`; every returned schedule's
store document is stamped with `acquired_by = scheduler_id` and
`acquired_until = now + lock_expiration_delay`; if no schedule qualifies
the result is the empty list and the store is untouched. -/
theorem acquire_schedules_spec (st : DataStore) (schedulerId : String) (limit : Nat)
    (now : Int) (hpos : 0 < limit) :
    (∀ s ∈ (acquireSchedules st schedulerId limit now).2,
        s ∈ st.schedules ∧ scheduleEligible now s = true)
      ∧ List.Sorted schedNftLe (acquireSchedules st schedulerId limit now).2
      ∧ (acquireSchedules st schedulerId limit now).2.length
          = min limit (st.schedules.filter (scheduleEligible now)).length
      ∧ (∀ s ∈ (acquireSchedules st schedulerId limit now).2,
          ∀ d ∈ (acquireSchedules st schedulerId limit now).1.schedules, d.id = s.id →
            d.acquiredBy = some schedulerId
              ∧ d.acquiredUntil = some (now + st.lockExpirationDelay))
      ∧ (st.schedules.filter (scheduleEligible now) = [] →
          acquireSchedules st schedulerId limit now = (st, [])) := by
  have hsnd : (acquireSchedules st schedulerId limit now).2
      = (List.insertionSort schedNftLe (st.schedules.filter (scheduleEligible now))).take
          limit := by
    rw [acquireSchedules_snd, applyLimit_some_pos _ hpos]
  refine ⟨?_, ?_, ?_, ?_, ?_⟩
  · intro s hs
    rw [hsnd] at hs
    have h1 := List.mem_of_mem_take hs
    have h2 : s ∈ st.schedules.filter (scheduleEligible now) := by
      simpa [List.mem_insertionSort] using h1
    exact ⟨(List.mem_filter.mp h2).1, (List.mem_filter.mp h2).2⟩
  · rw [hsnd]
    exact (List.sorted_insertionSort schedNftLe _).sublist (List.take_sublist _ _)
  · rw [hsnd]
    simp [List.length_take, List.length_insertionSort]
  · intro s hs d hd hid
    rw [acquireSchedules_snd, applyLimit_some_pos _ hpos] at hs
    rw [acquireSchedules_fst] at hd
    rw [applyLimit_some_pos _ hpos] at hd
    have hne : (List.insertionSort schedNftLe
        (st.schedules.filter (scheduleEligible now))).take limit ≠ [] :=
      List.ne_nil_of_mem hs
    rw [if_neg hne] at hd
    obtain ⟨d₀, hd₀, rfl⟩ := List.mem_map.mp hd
    by_cases hin : d₀.id ∈ ((List.insertionSort schedNftLe
        (st.schedules.filter (scheduleEligible now))).take limit).map (·.id)
    · rw [if_pos hin]
      exact ⟨rfl, rfl⟩
    · rw [if_neg hin] at hid ⊢
      exact absurd (hid ▸ List.mem_map_of_mem (·.id) hs) hin
  · intro hempty
    have hfe : applyLimit (some limit)
        (List.insertionSort schedNftLe (st.schedules.filter (scheduleEligible now)))
        = [] := by
      rw [hempty]
      simpa using applyLimit_nil (some limit)
    simp only [acquireSchedules]
    rw [if_pos hfe, hfe]

/-- Witness for C2 on a concrete store: two due, unleased schedules come
back sorted by `next_fire_time` and stamped for owner "A". -/
theorem acquire_schedules_spec_witness :
    let s1 : ScheduleDoc :=
      { id := "s1", taskId := "t1", trigger := 0, nextFireTime := some 3,
        acquiredBy := none, acquiredUntil := none }
    let s2 : ScheduleDoc :=
      { id := "s2", taskId := "t1", trigger := 0, nextFireTime := some 1,
        acquiredBy := none, acquiredUntil := none }
    let st : DataStore :=
      { tasks := [], schedules := [s1, s2], jobs := [], jobResults := [],
        lockExpirationDelay := 30, serializeOk := fun _ => true }
    (∀ s ∈ (acquireSchedules st "A" 10 5).2,
        s ∈ st.schedules ∧ scheduleEligible 5 s = true)
      ∧ List.Sorted schedNftLe (acquireSchedules st "A" 10 5).2
      ∧ (acquireSchedules st "A" 10 5).2.length
          = min 10 (st.schedules.filter (scheduleEligible 5)).length
      ∧ (∀ s ∈ (acquireSchedules st "A" 10 5).2,
          ∀ d ∈ (acquireSchedules st "A" 10 5).1.schedules, d.id = s.id →
            d.acquiredBy = some "A" ∧ d.acquiredUntil = some (5 + st.lockExpirationDelay))
      ∧ (st.schedules.filter (scheduleEligible 5) = [] →
          acquireSchedules st "A" 10 5 = (st, [])) :=
  acquire_schedules_spec _ "A" 10 5 (by decide)

/-- Counterexample to C2 as stated: a schedule whose `next_fire_time`
equals now (eligible by the claim's `≤ now`) and which holds no lease is
not returned — the source's `$lt` comparison is strict. -/
theorem acquireSchedules_boundary_counterexample :
    let s : ScheduleDoc :=
      { id := "s1", taskId := "t1", trigger := 0, nextFireTime := some 5,
        acquiredBy := none, acquiredUntil := none }
    let st : DataStore :=
      { tasks := [], schedules := [s], jobs := [], jobResults := [],
        lockExpirationDelay := 30, serializeOk := fun _ => true }
    s.nextFireTime = some 5 ∧ (5 : Int) ≤ 5 ∧ s.acquiredUntil = none
      ∧ (acquireSchedules st "A" 10 5).2 = [] := by
  exact ⟨rfl, by decide, rfl, rfl⟩

/-! ## Helper lemmas: events of `release_schedules` -/

theorem releaseRequests_upd_map (serOk : Nat → Bool) (schedulerId : String)
    (gs : List ScheduleDoc) :
    ((releaseRequests serOk schedulerId gs).2.1.map
        fun p => Event.scheduleUpdated p.1 (some p.2))
      = gs.filterMap (fun s => match s.nextFireTime with
          | some nft => if serOk s.trigger
              then some (Event.scheduleUpdated s.id (some nft)) else none
          | none => none) := by
  induction gs with
  | nil => rfl
  | cons s rest ih =>
    rcases hn : s.nextFireTime with _ | nft
    · simp [releaseRequests, hn, List.filterMap_cons, ih]
    · by_cases hs : serOk s.trigger
        <;> simp [releaseRequests, hn, hs, List.filterMap_cons, ih]

theorem releaseRequests_fin_map (serOk : Nat → Bool) (schedulerId : String)
    (gs : List ScheduleDoc) :
    ((releaseRequests serOk schedulerId gs).2.2.map Event.scheduleRemoved)
      = gs.filterMap (fun s => match s.nextFireTime with
          | some _ => if serOk s.trigger then none
              else some (Event.scheduleRemoved s.id)
          | none => some (Event.scheduleRemoved s.id)) := by
  induction gs with
  | nil => rfl
  | cons s rest ih =>
    rcases hn : s.nextFireTime with _ | nft
    · simp [releaseRequests, hn, List.filterMap_cons, ih]
    · by_cases hs : serOk s.trigger
        <;> simp [releaseRequests, hn, hs, List.filterMap_cons, ih]

theorem releaseRequests_counts (serOk : Nat → Bool) (schedulerId : String)
    (gs : List ScheduleDoc) :
    (releaseRequests serOk schedulerId gs).2.1.length
        + (releaseRequests serOk schedulerId gs).2.2.length = gs.length := by
  induction gs with
  | nil => rfl
  | cons s rest ih =>
    rcases hn : s.nextFireTime with _ | nft
    · simp only [releaseRequests, hn, List.length_cons]
      omega
    · by_cases hs : serOk s.trigger
        <;> simp [releaseRequests, hn, hs]
        <;> omega

/-! ## C9: events of a multi-item release -/

/-- **C9 (amended).** `release_schedules` emits exactly one event per
input item (whether or not the item's guarded write matched anything),
and all events are emitted only after the bulk store writes; but the
events are grouped by kind, not interleaved in processing order: first
every `ScheduleUpdated` (re-armed items, in processing order, carrying
the new `next_fire_time`), then every `ScheduleRemoved` (retired or
serialization-failed items, in processing order). -/
theorem releaseSchedules_events (st : DataStore) (schedulerId : String)
    (given : List ScheduleDoc) :
    (releaseSchedules st schedulerId given).2
        = given.filterMap (fun s => match s.nextFireTime with
            | some nft => if st.serializeOk s.trigger
                then some (Event.scheduleUpdated s.id (some nft)) else none
            | none => none)
          ++ given.filterMap (fun s => match s.nextFireTime with
            | some _ => if st.serializeOk s.trigger then none
                else some (Event.scheduleRemoved s.id)
            | none => some (Event.scheduleRemoved s.id))
      ∧ (releaseSchedules st schedulerId given).2.length = given.length := by
  constructor
  · show (releaseRequests st.serializeOk schedulerId given).2.1.map _
        ++ (releaseRequests st.serializeOk schedulerId given).2.2.map _ = _
    rw [releaseRequests_upd_map, releaseRequests_fin_map]
  · show ((releaseRequests st.serializeOk schedulerId given).2.1.map _
        ++ (releaseRequests st.serializeOk schedulerId given).2.2.map _).length = _
    rw [List.length_append, List.length_map, List.length_map]
    exact releaseRequests_counts _ _ _

/-- Counterexample to C9 as stated: releasing the mixed list
[retired "A", re-armed "B"] processes "A" first, yet its
`ScheduleRemoved` event is emitted *after* "B"'s `ScheduleUpdated` —
events are not in item-processing order. -/
theorem releaseSchedules_event_order_counterexample :
    let a : ScheduleDoc :=
      { id := "A", taskId := "t1", trigger := 0, nextFireTime := none,
        acquiredBy := some "W", acquiredUntil := some 100 }
    let b : ScheduleDoc :=
      { id := "B", taskId := "t1", trigger := 0, nextFireTime := some 20,
        acquiredBy := some "W", acquiredUntil := some 100 }
    let st : DataStore :=
      { tasks := [], schedules := [a, b], jobs := [], jobResults := [],
        lockExpirationDelay := 10, serializeOk := fun _ => true }
    (releaseSchedules st "W" [a, b]).2
      = [Event.scheduleUpdated "B" (some 20), Event.scheduleRemoved "A"] := by
  decide

/-! ## Helper lemmas: the admission loop of `acquire_jobs` -/

theorem acquireJobs_acquired (st : DataStore) (workerId : String) (limit : Option Nat)
    (ignoredTasks : Option (List String)) (now : Int) :
    (acquireJobs st workerId limit ignoredTasks now).2.1
      = admitJobs (slotsLeft0 st) (candidateJobs st limit ignoredTasks now) := rfl

theorem acquireJobs_tasks (st : DataStore) (workerId : String) (limit : Option Nat)
    (ignoredTasks : Option (List String)) (now : Int) :
    (acquireJobs st workerId limit ignoredTasks now).1.tasks
      = (admitJobs (slotsLeft0 st) (candidateJobs st limit ignoredTasks now)).foldl
          (fun ts j => incRunningJobs j.taskId 1 ts) st.tasks := rfl

theorem acquireJobs_jobs (st : DataStore) (workerId : String) (limit : Option Nat)
    (ignoredTasks : Option (List String)) (now : Int) :
    (acquireJobs st workerId limit ignoredTasks now).1.jobs
      = (admitJobs (slotsLeft0 st) (candidateJobs st limit ignoredTasks now)).foldl
          (fun l j =>
            updateFirstJob j.id (stampJob workerId now st.lockExpirationDelay j) l)
          st.jobs := rfl

theorem admitJobs_sublist (slots : String → Option Int) (l : List JobDoc) :
    List.Sublist (admitJobs slots l) l := by
  induction l generalizing slots with
  | nil => exact List.Sublist.refl _
  | cons j js ih =>
    rcases hslot : slots j.taskId with _ | k
    · simp only [admitJobs, hslot]
      exact List.Sublist.cons₂ j (ih _)
    · by_cases hk : k = 0
      · simp only [admitJobs, hslot, if_pos hk]
        exact List.Sublist.cons j (ih _)
      · simp only [admitJobs, hslot, if_neg hk]
        exact List.Sublist.cons₂ j (ih _)

theorem admit_all (slots : String → Option Int) (l : List JobDoc)
    (h : ∀ j ∈ l, slots j.taskId = none
        ∨ ∃ k, slots j.taskId = some k
            ∧ ((l.countP fun x => x.taskId = j.taskId : Nat) : Int) ≤ k) :
    admitJobs slots l = l := by
  induction l generalizing slots with
  | nil => rfl
  | cons j js ih =>
    rcases h j (List.mem_cons_self _ _) with hn | ⟨k, hk, hcount⟩
    · simp only [admitJobs, hn]
      congr 1
      refine ih _ fun j' hj' => ?_
      rcases h j' (List.mem_cons_of_mem _ hj') with hn' | ⟨k', hk', hc'⟩
      · exact Or.inl hn'
      · refine Or.inr ⟨k', hk', ?_⟩
        have hsub := (List.sublist_cons_self j js).countP_le
          (fun x => decide (x.taskId = j'.taskId))
        omega
    · have hone : (1 : Int) ≤ ((j :: js).countP fun x => x.taskId = j.taskId : Nat) := by
        have h1 : 0 < ((j :: js).countP fun x => x.taskId = j.taskId) :=
          List.countP_pos_iff.mpr ⟨j, List.mem_cons_self _ _, by simp⟩
        exact_mod_cast h1
      have hkne : ¬ k = 0 := by omega
      simp only [admitJobs, hk, if_neg hkne]
      congr 1
      refine ih _ fun j' hj' => ?_
      by_cases hsame : j'.taskId = j.taskId
      · refine Or.inr ⟨k - 1, by simp [updateSlots, hsame], ?_⟩
        have hc : ((j :: js).countP fun x => x.taskId = j'.taskId)
            = (js.countP fun x => x.taskId = j'.taskId) + 1 := by
          simp [List.countP_cons, hsame]
        have hcount' : ((j :: js).countP fun x => x.taskId = j'.taskId)
            = ((j :: js).countP fun x => x.taskId = j.taskId) := by
          simp [hsame]
        omega
      · have hs' : updateSlots slots j.taskId (k - 1) j'.taskId = slots j'.taskId := by
          simp only [updateSlots]
          rw [if_neg (fun hcon => hsame hcon)]
        rcases h j' (List.mem_cons_of_mem _ hj') with hn' | ⟨k', hk', hc'⟩
        · exact Or.inl (hs' ▸ hn')
        · refine Or.inr ⟨k', hs' ▸ hk', ?_⟩
          have hsub := (List.sublist_cons_self j js).countP_le
            (fun x => decide (x.taskId = j'.taskId))
          omega

theorem admit_count_le (slots : String → Option Int) (l : List JobDoc) (tid : String)
    (k : Int) (hk : slots tid = some k) (hpos : 0 ≤ k) :
    (((admitJobs slots l).countP fun j => j.taskId = tid : Nat) : Int) ≤ k := by
  induction l generalizing slots k with
  | nil => simpa [admitJobs] using hpos
  | cons j js ih =>
    rcases hslot : slots j.taskId with _ | k'
    · have hne : ¬ j.taskId = tid := fun hcon => by
        rw [hcon, hk] at hslot; cases hslot
      simp only [admitJobs, hslot]
      rw [List.countP_cons]
      simp only [hne, decide_False, if_false]
      simpa using ih slots k hk hpos
    · by_cases hzero : k' = 0
      · simp only [admitJobs, hslot, if_pos hzero]
        exact ih slots k hk hpos
      · simp only [admitJobs, hslot, if_neg hzero]
        by_cases hsame : j.taskId = tid
        · have hk'' : k' = k := by
            rw [hsame, hk] at hslot
            injection hslot with h'
            omega
          rw [List.countP_cons]
          simp only [hsame, decide_True, if_true]
          have hrec := ih (updateSlots slots tid (k' - 1)) (k' - 1)
            (by simp [updateSlots]) (by omega)
          omega
        · rw [List.countP_cons]
          simp only [hsame, decide_False, if_false]
          have hrec := ih (updateSlots slots j.taskId (k' - 1)) k
            (by
              simp only [updateSlots]
              rw [if_neg (fun hcon => hsame hcon.symm)]
              exact hk)
            hpos
          simpa using hrec

theorem admit_mem_of_neg (slots : String → Option Int) (l : List JobDoc) (tid : String)
    (h : ∃ k, slots tid = some k ∧ k < 0) :
    ∀ j ∈ l, j.taskId = tid → j ∈ admitJobs slots l := by
  induction l generalizing slots with
  | nil => intro j hj; cases hj
  | cons j js ih =>
    obtain ⟨k, hk, hneg⟩ := h
    intro j' hj' htid
    rcases hslot : slots j.taskId with _ | k'
    · simp only [admitJobs, hslot]
      rcases List.mem_cons.mp hj' with rfl | hj''
      · exact List.mem_cons_self _ _
      · exact List.mem_cons_of_mem _ (ih slots ⟨k, hk, hneg⟩ j' hj'' htid)
    · by_cases hzero : k' = 0
      · have hne : ¬ j.taskId = tid := fun hcon => by
          rw [hcon, hk] at hslot
          injection hslot with h'
          omega
        simp only [admitJobs, hslot, if_pos hzero]
        rcases List.mem_cons.mp hj' with rfl | hj''
        · exact absurd htid hne
        · exact ih slots ⟨k, hk, hneg⟩ j' hj'' htid
      · simp only [admitJobs, hslot, if_neg hzero]
        rcases List.mem_cons.mp hj' with rfl | hj''
        · exact List.mem_cons_self _ _
        · refine List.mem_cons_of_mem _ (ih _ ?_ j' hj'' htid)
          by_cases hsame : j.taskId = tid
          · have hk'' : k' = k := by
              rw [hsame, hk] at hslot
              injection hslot with h'
              omega
            exact ⟨k' - 1, by simp [updateSlots, hsame], by omega⟩
          · exact ⟨k, by
              simp only [updateSlots]
              rw [if_neg (fun hcon => hsame hcon.symm)]
              exact hk, hneg⟩

theorem admit_count_of_neg (slots : String → Option Int) (l : List JobDoc) (tid : String)
    (h : ∃ k, slots tid = some k ∧ k < 0) :
    ((admitJobs slots l).countP fun j => j.taskId = tid)
      = l.countP fun j => j.taskId = tid := by
  induction l generalizing slots with
  | nil => rfl
  | cons j js ih =>
    obtain ⟨k, hk, hneg⟩ := h
    rcases hslot : slots j.taskId with _ | k'
    · simp only [admitJobs, hslot]
      rw [List.countP_cons, List.countP_cons, ih slots ⟨k, hk, hneg⟩]
    · by_cases hzero : k' = 0
      · have hne : ¬ j.taskId = tid := fun hcon => by
          rw [hcon, hk] at hslot
          injection hslot with h'
          omega
        simp only [admitJobs, hslot, if_pos hzero]
        rw [List.countP_cons]
        simp only [hne, decide_False, if_false]
        simpa using ih slots ⟨k, hk, hneg⟩
      · simp only [admitJobs, hslot, if_neg hzero]
        rw [List.countP_cons, List.countP_cons]
        by_cases hsame : j.taskId = tid
        · have hk'' : k' = k := by
            rw [hsame, hk] at hslot
            injection hslot with h'
            omega
          rw [ih _ ⟨k' - 1, by simp [updateSlots, hsame], by omega⟩]
        · rw [ih _ ⟨k, by
            simp only [updateSlots]
            rw [if_neg (fun hcon => hsame hcon.symm)]
            exact hk, hneg⟩]

/-! ## C5: FIFO admission -/

/-- **C5.** Given unleased jobs with pairwise distinct `created_at`
values and sufficient slots (each job's task is either uncapped/unknown,
or its remaining slot count covers all of that task's queued jobs),
`acquire_jobs` returns exactly the stored jobs, ordered by strictly
ascending `created_at`. -/
theorem acquire_jobs_fifo (st : DataStore) (workerId : String) (now : Int)
    (h1 : ∀ j ∈ st.jobs, j.acquiredUntil = none)
    (h2 : st.jobs.Pairwise fun a b => a.createdAt ≠ b.createdAt)
    (h3 : ∀ j ∈ st.jobs,
        ((st.jobs.countP fun x => x.taskId = j.taskId : Nat) : Int)
          ≤ (slotsLeft0 st j.taskId).getD
              ((st.jobs.countP fun x => x.taskId = j.taskId : Nat) : Int)) :
    List.Perm (acquireJobs st workerId none none now).2.1 st.jobs
      ∧ (acquireJobs st workerId none none now).2.1.Pairwise
          (fun a b => a.createdAt < b.createdAt) := by
  have hfilter : st.jobs.filter (jobQueryMatch now none) = st.jobs :=
    List.filter_eq_self.mpr fun j hj => by
      simp [jobQueryMatch, jobLeaseFree, h1 j hj]
  have hpool : candidateJobs st none none now = List.insertionSort jobCreatedLe st.jobs := by
    simp [candidateJobs, applyLimit, hfilter]
  have hperm := List.perm_insertionSort jobCreatedLe st.jobs
  have hadmit : admitJobs (slotsLeft0 st) (List.insertionSort jobCreatedLe st.jobs)
      = List.insertionSort jobCreatedLe st.jobs := by
    refine admit_all _ _ fun j hj => ?_
    have hj' : j ∈ st.jobs := hperm.mem_iff.mp hj
    have hcnt : ((List.insertionSort jobCreatedLe st.jobs).countP
        fun x => x.taskId = j.taskId) = st.jobs.countP fun x => x.taskId = j.taskId :=
      hperm.countP_eq _
    rcases ho : slotsLeft0 st j.taskId with _ | k
    · exact Or.inl rfl
    · refine Or.inr ⟨k, rfl, ?_⟩
      have := h3 j hj'
      rw [ho] at this
      simp only [Option.getD_some] at this
      rw [hcnt]
      exact this
  have hacq : (acquireJobs st workerId none none now).2.1
      = List.insertionSort jobCreatedLe st.jobs := by
    rw [acquireJobs_acquired, hpool, hadmit]
  constructor
  · rw [hacq]
    exact hperm
  · rw [hacq]
    have hsorted : (List.insertionSort jobCreatedLe st.jobs).Pairwise jobCreatedLe :=
      List.sorted_insertionSort jobCreatedLe st.jobs
    have hne : (List.insertionSort jobCreatedLe st.jobs).Pairwise
        (fun a b => a.createdAt ≠ b.createdAt) :=
      (hperm.pairwise_iff fun h => h.symm).mpr h2
    exact (hsorted.and hne).imp fun h => lt_of_le_of_ne h.1 h.2

/-- Witness for C5: three unleased jobs (two on a capped task with two
free slots, one on an uncapped task) come back as a permutation of the
store in strictly ascending `created_at` order. -/
theorem acquire_jobs_fifo_witness :
    let j1 : JobDoc :=
      { id := 1, taskId := "t1", createdAt := 10, startedAt := none,
        acquiredBy := none, acquiredUntil := none, lockExpirationDelay := none }
    let j2 : JobDoc :=
      { id := 2, taskId := "t2", createdAt := 5, startedAt := none,
        acquiredBy := none, acquiredUntil := none, lockExpirationDelay := none }
    let j3 : JobDoc :=
      { id := 3, taskId := "t1", createdAt := 20, startedAt := none,
        acquiredBy := none, acquiredUntil := none, lockExpirationDelay := none }
    let st : DataStore :=
      { tasks := [{ id := "t1", maxRunningJobs := some 2, runningJobs := 0 }],
        schedules := [], jobs := [j1, j2, j3], jobResults := [],
        lockExpirationDelay := 10, serializeOk := fun _ => true }
    List.Perm (acquireJobs st "W" none none 0).2.1 st.jobs
      ∧ (acquireJobs st "W" none none 0).2.1.Pairwise
          (fun a b => a.createdAt < b.createdAt) :=
  acquire_jobs_fifo _ "W" 0 (by decide) (by decide) (by decide)

/-! ## Helper lemmas: the per-task `$inc` of `acquire_jobs` -/

theorem find?_incRunningJobs (tid tidInc : String) (δ : Int) (ts : List TaskDoc) :
    (incRunningJobs tidInc δ ts).find? (fun x => x.id = tid)
      = (if tidInc = tid
         then (ts.find? (fun x => x.id = tid)).map
             (fun t => { t with runningJobs := t.runningJobs + δ })
         else ts.find? (fun x => x.id = tid)) := by
  induction ts with
  | nil => split <;> rfl
  | cons t rest ih =>
    by_cases h1 : t.id = tidInc
    · simp only [incRunningJobs, if_pos h1]
      by_cases h2 : tidInc = tid
      · rw [if_pos h2]
        have ht : t.id = tid := h1.trans h2
        rw [List.find?_cons_of_pos _ (by simpa using ht),
          List.find?_cons_of_pos _ (by simpa using ht)]
        rfl
      · rw [if_neg h2]
        have ht : ¬ t.id = tid := fun hcon => h2 ((h1.symm.trans hcon))
        rw [List.find?_cons_of_neg _ (by simpa using ht),
          List.find?_cons_of_neg _ (by simpa using ht)]
    · simp only [incRunningJobs, if_neg h1]
      by_cases ht : t.id = tid
      · rw [List.find?_cons_of_pos _ (by simpa using ht),
          List.find?_cons_of_pos _ (by simpa using ht)]
        by_cases h2 : tidInc = tid
        · exact absurd (h2 ▸ ht) h1
        · rw [if_neg h2]
      · rw [List.find?_cons_of_neg _ (by simpa using ht),
          List.find?_cons_of_neg _ (by simpa using ht)]
        exact ih

theorem find?_foldInc (acq : List JobDoc) (ts : List TaskDoc) (tid : String) :
    (acq.foldl (fun a j => incRunningJobs j.taskId 1 a) ts).find? (fun x => x.id = tid)
      = (ts.find? (fun x => x.id = tid)).map
          (fun t => { t with
            runningJobs := t.runningJobs + (acq.countP fun j => j.taskId = tid : Nat) }) := by
  induction acq generalizing ts with
  | nil =>
    rcases h : ts.find? (fun x => x.id = tid) with _ | t
    · simp [h]
    · obtain ⟨tId, tMax, tRun⟩ := t
      simp [h]
  | cons j acq ih =>
    simp only [List.foldl_cons]
    rw [ih, find?_incRunningJobs]
    by_cases hsame : j.taskId = tid
    · rw [if_pos hsame]
      rcases h : ts.find? (fun x => x.id = tid) with _ | t
      · simp [h]
      · obtain ⟨tId, tMax, tRun⟩ := t
        have hc : ((j :: acq).countP fun x => x.taskId = tid)
            = (acq.countP fun x => x.taskId = tid) + 1 := by
          simp [List.countP_cons, hsame]
        simp only [h, hc, Option.map_some', Option.some_inj, TaskDoc.mk.injEq,
          true_and]
        push_cast
        ring
    · rw [if_neg hsame]
      rcases h : ts.find? (fun x => x.id = tid) with _ | t
      · simp [h]
      · have hc : ((j :: acq).countP fun x => x.taskId = tid)
            = (acq.countP fun x => x.taskId = tid) := by
          simp [List.countP_cons, hsame]
        simp [h, hc]

/-! ## C10: the skip test is an exact-zero comparison -/

/-- **C10.** In `acquire_jobs` a capped task's job is skipped only when
the computed remaining slot count is exactly `0`: if a task's
`running_jobs` already exceeds its `max_running_jobs`, the remaining
count is negative, so every candidate job of that task is admitted
anyway and `running_jobs` is incremented further (ending up even further
above the cap). -/
theorem acquire_jobs_negative_slots (st : DataStore) (workerId : String)
    (limit : Option Nat) (ignoredTasks : Option (List String)) (now : Int)
    (tid : String) (t : TaskDoc) (m : Int)
    (ht : st.tasks.find? (fun x => x.id = tid) = some t)
    (hm : t.maxRunningJobs = some m) (hover : m < t.runningJobs) :
    (∀ j ∈ candidateJobs st limit ignoredTasks now, j.taskId = tid →
        j ∈ (acquireJobs st workerId limit ignoredTasks now).2.1)
      ∧ ((acquireJobs st workerId limit ignoredTasks now).2.1.countP
            fun j => j.taskId = tid)
          = ((candidateJobs st limit ignoredTasks now).countP fun j => j.taskId = tid)
      ∧ (acquireJobs st workerId limit ignoredTasks now).1.tasks.find?
            (fun x => x.id = tid)
          = some { t with runningJobs := t.runningJobs
              + ((acquireJobs st workerId limit ignoredTasks now).2.1.countP
                  fun j => j.taskId = tid : Nat) }
      ∧ m < t.runningJobs
          + ((acquireJobs st workerId limit ignoredTasks now).2.1.countP
              fun j => j.taskId = tid : Nat) := by
  have hslot : slotsLeft0 st tid = some (m - t.runningJobs) := by
    simp [slotsLeft0, ht, hm]
  have hneg : ∃ k, slotsLeft0 st tid = some k ∧ k < 0 :=
    ⟨m - t.runningJobs, hslot, by omega⟩
  refine ⟨?_, ?_, ?_, ?_⟩
  · intro j hj htid
    rw [acquireJobs_acquired]
    exact admit_mem_of_neg _ _ _ hneg j hj htid
  · rw [acquireJobs_acquired]
    exact admit_count_of_neg _ _ _ hneg
  · rw [acquireJobs_tasks, find?_foldInc, ht, acquireJobs_acquired]
    rfl
  · have hcast : (0 : Int)
        ≤ ((acquireJobs st workerId limit ignoredTasks now).2.1.countP
            fun j => j.taskId = tid : Nat) := Int.natCast_nonneg _
    omega

/-- Witness for C10: a task capped at 1 but with `running_jobs = 2`
still has its only candidate job admitted, pushing the counter to 3. -/
theorem acquire_jobs_negative_slots_witness :
    let t : TaskDoc := { id := "t1", maxRunningJobs := some 1, runningJobs := 2 }
    let j : JobDoc :=
      { id := 1, taskId := "t1", createdAt := 0, startedAt := none,
        acquiredBy := none, acquiredUntil := none, lockExpirationDelay := none }
    let st : DataStore :=
      { tasks := [t], schedules := [], jobs := [j], jobResults := [],
        lockExpirationDelay := 10, serializeOk := fun _ => true }
    (∀ x ∈ candidateJobs st none none 0, x.taskId = "t1" →
        x ∈ (acquireJobs st "W" none none 0).2.1)
      ∧ ((acquireJobs st "W" none none 0).2.1.countP fun x => x.taskId = "t1")
          = ((candidateJobs st none none 0).countP fun x => x.taskId = "t1")
      ∧ (acquireJobs st "W" none none 0).1.tasks.find? (fun x => x.id = "t1")
          = some { t with runningJobs := t.runningJobs
              + ((acquireJobs st "W" none none 0).2.1.countP
                  fun x => x.taskId = "t1" : Nat) }
      ∧ (1 : Int) < t.runningJobs
          + ((acquireJobs st "W" none none 0).2.1.countP
              fun x => x.taskId = "t1" : Nat) :=
  acquire_jobs_negative_slots _ "W" none none 0 "t1" _ 1 (by decide) (by decide)
    (by decide)

/-! ## The job-lifecycle transition system (for the counter invariant) -/

/-- `add_job(job)`: `insert_one` of the marshalled job document (the
operation publishes a `JobAdded` event, irrelevant to the counters). -/
def addJob (st : DataStore) (j : JobDoc) : DataStore :=
  { st with jobs := st.jobs ++ [j] }

/-- Number of job documents of the given task currently carrying a lease
tag (`acquired_by` set). -/
def leasedCount (st : DataStore) (tid : String) : Nat :=
  st.jobs.countP fun j => j.taskId = tid && j.acquiredBy.isSome

/-- Per-task counter invariant, decidable so concrete states can be
checked by evaluation: for a capped task, the number of lease-tagged
jobs is at most `running_jobs`, which is at most the cap. -/
def taskOk (st : DataStore) (t : TaskDoc) : Bool :=
  match t.maxRunningJobs with
  | some m =>
    decide ((leasedCount st t.id : Int) ≤ t.runningJobs)
      && decide (t.runningJobs ≤ m)
  | none => true

/-- A valid store state: unique job ids (an `insert_one` duplicate would
raise), unique task ids (`_id` is the primary key), and every task
satisfying the counter invariant. -/
abbrev ValidState (st : DataStore) : Prop :=
  (st.jobs.map (fun j => j.id)).Nodup
    ∧ (st.tasks.map (fun t => t.id)).Nodup
    ∧ ∀ t ∈ st.tasks, taskOk st t = true

/-- One step of the job lifecycle, as driven by worker/scheduler loops:
an `acquire_jobs` call with any arguments; a `release_job` call made by
the worker that currently holds the job's lease, passing the job's own
task id (the completion protocol of §4.4); or an `add_job` insert of a
fresh, unleased job (`insert_one` would raise on a duplicate id, and
newly created jobs carry no lease fields). -/
inductive Step : DataStore → DataStore → Prop where
  | acquire (st : DataStore) (workerId : String) (limit : Option Nat)
      (ignoredTasks : Option (List String)) (now : Int) :
      Step st (acquireJobs st workerId limit ignoredTasks now).1
  | release (st : DataStore) (workerId taskId : String) (result : JobResultDoc)
      (j : JobDoc) (hj : j ∈ st.jobs) (hid : j.id = result.jobId)
      (htask : j.taskId = taskId) (hacq : j.acquiredBy = some workerId) :
      Step st (releaseJob st workerId taskId result).1
  | add (st : DataStore) (j : JobDoc)
      (hfresh : ∀ j' ∈ st.jobs, j'.id ≠ j.id) (hunleased : j.acquiredBy = none) :
      Step st (addJob st j)

/-- Reachability under the job-lifecycle steps. -/
inductive Reachable : DataStore → DataStore → Prop where
  | refl (st : DataStore) : Reachable st st
  | step {st₁ st₂ st₃ : DataStore} (h : Reachable st₁ st₂) (hs : Step st₂ st₃) :
      Reachable st₁ st₃

/-! ## Helper lemmas for the invariant proof -/

theorem countP_deleteOneJob (jid : Nat) (l : List JobDoc) (p : JobDoc → Bool)
    (j : JobDoc) (hj : j ∈ l) (hjid : j.id = jid)
    (hnod : (l.map (fun x => x.id)).Nodup) :
    (deleteOneJob jid l).2.countP p + (if p j then 1 else 0) = l.countP p := by
  induction l with
  | nil => cases hj
  | cons a rest ih =>
    simp only [List.map_cons, List.nodup_cons] at hnod
    by_cases ha : a.id = jid
    · have haj : a = j := by
        rcases List.mem_cons.mp hj with rfl | hj'
        · rfl
        · exfalso
          apply hnod.1
          have hmem : j.id ∈ rest.map (fun x => x.id) := List.mem_map_of_mem _ hj'
          rw [hjid] at hmem
          rw [ha]
          exact hmem
      subst haj
      simp only [deleteOneJob, if_pos ha]
      rw [List.countP_cons]
    · have hj' : j ∈ rest := by
        rcases List.mem_cons.mp hj with rfl | hj'
        · exact absurd hjid ha
        · exact hj'
      simp only [deleteOneJob, if_neg ha]
      rw [List.countP_cons, List.countP_cons]
      have := ih hj' hnod.2
      omega

theorem find?_task_of_mem_nodup (ts : List TaskDoc) (t : TaskDoc) (ht : t ∈ ts)
    (hnod : (ts.map (fun x => x.id)).Nodup) :
    ts.find? (fun x => x.id = t.id) = some t := by
  induction ts with
  | nil => cases ht
  | cons a rest ih =>
    simp only [List.map_cons, List.nodup_cons] at hnod
    rcases List.mem_cons.mp ht with rfl | ht'
    · rw [List.find?_cons_of_pos _ (by simp)]
    · have hne : ¬ a.id = t.id := fun hcon => by
        apply hnod.1
        rw [hcon]
        exact List.mem_map_of_mem _ ht'
      rw [List.find?_cons_of_neg _ (by simpa using hne)]
      exact ih ht' hnod.2

theorem incRunningJobs_map_id (tid : String) (δ : Int) (ts : List TaskDoc) :
    (incRunningJobs tid δ ts).map (fun t => t.id) = ts.map (fun t => t.id) := by
  induction ts with
  | nil => rfl
  | cons a rest ih =>
    by_cases ha : a.id = tid
    · simp [incRunningJobs, ha]
    · simp [incRunningJobs, ha, ih]

theorem incRunningJobs_eq_map (tid : String) (δ : Int) (ts : List TaskDoc)
    (hnod : (ts.map (fun t => t.id)).Nodup) :
    incRunningJobs tid δ ts
      = ts.map fun t =>
          if t.id = tid then { t with runningJobs := t.runningJobs + δ } else t := by
  induction ts with
  | nil => rfl
  | cons a rest ih =>
    simp only [List.map_cons, List.nodup_cons] at hnod
    by_cases ha : a.id = tid
    · simp only [incRunningJobs, if_pos ha, List.map_cons]
      congr 1
      have : ∀ t ∈ rest,
          (if t.id = tid then { t with runningJobs := t.runningJobs + δ } else t) = t := by
        intro t htr
        rw [if_neg]
        intro hcon
        apply hnod.1
        rw [ha, ← hcon]
        exact List.mem_map_of_mem _ htr
      rw [List.map_congr_left this]
      simp
    · simp only [incRunningJobs, if_neg ha, List.map_cons]
      congr 1
      exact ih hnod.2

theorem foldInc_eq_map (acq : List JobDoc) (ts : List TaskDoc)
    (hnod : (ts.map (fun t => t.id)).Nodup) :
    acq.foldl (fun a j => incRunningJobs j.taskId 1 a) ts
      = ts.map fun t => { t with
          runningJobs := t.runningJobs + (acq.countP fun j => j.taskId = t.id : Nat) } := by
  induction acq generalizing ts with
  | nil =>
    have hone : ∀ t ∈ ts, ({ t with
        runningJobs := t.runningJobs
          + (([] : List JobDoc).countP fun j => j.taskId = t.id : Nat) }
          : TaskDoc) = t := by
      intro t _
      obtain ⟨a, b, c⟩ := t
      simp
    simp only [List.foldl_nil]
    rw [List.map_congr_left hone]
    simp
  | cons j acq ih =>
    simp only [List.foldl_cons]
    rw [incRunningJobs_eq_map _ _ _ hnod]
    have hids : ((ts.map fun t =>
        if t.id = j.taskId then { t with runningJobs := t.runningJobs + 1 } else t).map
          (fun t => t.id)) = ts.map (fun t => t.id) := by
      rw [List.map_map]
      refine List.map_congr_left fun t _ => ?_
      by_cases h : t.id = j.taskId <;> simp [h]
    rw [ih _ (by rw [hids]; exact hnod), List.map_map]
    refine List.map_congr_left fun t _ => ?_
    by_cases h : t.id = j.taskId
    · have hcnt : ((j :: acq).countP fun x => x.taskId = t.id)
          = (acq.countP fun x => x.taskId = t.id) + 1 := by
        simp [List.countP_cons, h.symm]
      simp only [Function.comp, if_pos h, hcnt]
      simp only [TaskDoc.mk.injEq, true_and]
      push_cast
      ring
    · have hcnt : ((j :: acq).countP fun x => x.taskId = t.id)
          = (acq.countP fun x => x.taskId = t.id) := by
        have : ¬ j.taskId = t.id := fun hcon => h hcon.symm
        simp [List.countP_cons, this]
      simp only [Function.comp, if_neg h, hcnt]

theorem updateFirstJob_map_id (jid : Nat) (f : JobDoc → JobDoc)
    (hf : ∀ d, (f d).id = d.id) (l : List JobDoc) :
    (updateFirstJob jid f l).map (fun d => d.id) = l.map (fun d => d.id) := by
  induction l with
  | nil => rfl
  | cons a rest ih =>
    by_cases ha : a.id = jid
    · simp [updateFirstJob, ha, hf]
    · simp [updateFirstJob, ha, ih]

theorem mem_updateFirstJob_of_ne (jid : Nat) (f : JobDoc → JobDoc)
    (l : List JobDoc) (d : JobDoc) (hd : d ∈ l) (hne : d.id ≠ jid) :
    d ∈ updateFirstJob jid f l := by
  induction l with
  | nil => cases hd
  | cons a rest ih =>
    by_cases ha : a.id = jid
    · simp only [updateFirstJob, if_pos ha]
      rcases List.mem_cons.mp hd with rfl | hd'
      · exact absurd ha hne
      · exact List.mem_cons_of_mem _ hd'
    · simp only [updateFirstJob, if_neg ha]
      rcases List.mem_cons.mp hd with rfl | hd'
      · exact List.mem_cons_self _ _
      · exact List.mem_cons_of_mem _ (ih hd')

theorem countP_updateFirstJob_stamp_le (workerId : String) (now delay : Int)
    (j : JobDoc) (l : List JobDoc) (tid : String) (hjl : j ∈ l)
    (hnod : (l.map (fun x => x.id)).Nodup) :
    ((updateFirstJob j.id (stampJob workerId now delay j) l).countP
        fun d => d.taskId = tid && d.acquiredBy.isSome)
      ≤ (l.countP fun d => d.taskId = tid && d.acquiredBy.isSome)
        + (if j.taskId = tid then 1 else 0) := by
  induction l with
  | nil => cases hjl
  | cons a rest ih =>
    simp only [List.map_cons, List.nodup_cons] at hnod
    by_cases ha : a.id = j.id
    · have haj : a = j := by
        rcases List.mem_cons.mp hjl with rfl | hj'
        · rfl
        · exfalso
          apply hnod.1
          rw [ha]
          exact List.mem_map_of_mem _ hj'
      subst haj
      have hred : updateFirstJob a.id (stampJob workerId now delay a) (a :: rest)
          = stampJob workerId now delay a a :: rest := by
        simp [updateFirstJob]
      rw [hred, List.countP_cons, List.countP_cons]
      have hstamp : (decide ((stampJob workerId now delay a a).taskId = tid)
            && (stampJob workerId now delay a a).acquiredBy.isSome)
          = decide (a.taskId = tid) := by
        simp [stampJob]
      rw [hstamp]
      by_cases htid : a.taskId = tid <;> simp [htid]
    · have hj' : j ∈ rest := by
        rcases List.mem_cons.mp hjl with rfl | hj'
        · exact absurd rfl ha
        · exact hj'
      simp only [updateFirstJob, if_neg ha]
      rw [List.countP_cons, List.countP_cons]
      have := ih hj' hnod.2
      omega

theorem stampFold_count_le (workerId : String) (now delay : Int)
    (acq : List JobDoc) (l : List JobDoc) (tid : String)
    (hnodl : (l.map (fun x => x.id)).Nodup)
    (hnodacq : (acq.map (fun x => x.id)).Nodup)
    (hsub : ∀ x ∈ acq, x ∈ l) :
    ((acq.foldl
        (fun cur j => updateFirstJob j.id (stampJob workerId now delay j) cur) l).countP
          fun d => d.taskId = tid && d.acquiredBy.isSome)
      ≤ (l.countP fun d => d.taskId = tid && d.acquiredBy.isSome)
        + (acq.countP fun j => j.taskId = tid) := by
  induction acq generalizing l with
  | nil => simp
  | cons j acq ih =>
    simp only [List.map_cons, List.nodup_cons] at hnodacq
    simp only [List.foldl_cons]
    have hl₁id : ((updateFirstJob j.id (stampJob workerId now delay j) l).map
        (fun d => d.id)) = l.map (fun d => d.id) :=
      updateFirstJob_map_id j.id (stampJob workerId now delay j) (fun d => rfl) l
    have hrec := ih (updateFirstJob j.id (stampJob workerId now delay j) l)
      (by rw [hl₁id]; exact hnodl) hnodacq.2
      (fun x hx => mem_updateFirstJob_of_ne _ _ _ _ (hsub x (List.mem_cons_of_mem _ hx))
        (fun hcon => hnodacq.1 (hcon ▸ List.mem_map_of_mem _ hx)))
    have hone := countP_updateFirstJob_stamp_le workerId now delay j l tid
      (hsub j (List.mem_cons_self _ _)) hnodl
    rw [List.countP_cons]
    have hif : (if (decide (j.taskId = tid)) = true then (1 : Nat) else 0)
        = (if j.taskId = tid then 1 else 0) := by
      by_cases h : j.taskId = tid <;> simp [h]
    rw [hif]
    omega

theorem applyLimit_sublist (limit : Option Nat) (l : List α) :
    List.Sublist (applyLimit limit l) l := by
  cases limit with
  | none => exact List.Sublist.refl _
  | some n =>
    cases n with
    | zero => exact List.Sublist.refl _
    | succ k => exact List.take_sublist _ _

theorem candidateJobs_subset (st : DataStore) (limit : Option Nat)
    (ignoredTasks : Option (List String)) (now : Int) :
    ∀ x ∈ candidateJobs st limit ignoredTasks now, x ∈ st.jobs := by
  intro x hx
  have h1 := (applyLimit_sublist limit _).subset hx
  have h2 := (List.mem_insertionSort jobCreatedLe).mp h1
  exact List.mem_of_mem_filter h2

theorem candidateJobs_nodup_ids (st : DataStore) (limit : Option Nat)
    (ignoredTasks : Option (List String)) (now : Int)
    (hnod : (st.jobs.map (fun j => j.id)).Nodup) :
    ((candidateJobs st limit ignoredTasks now).map (fun j => j.id)).Nodup := by
  have hfil : ((st.jobs.filter (jobQueryMatch now ignoredTasks)).map
      (fun j => j.id)).Nodup :=
    hnod.sublist ((List.filter_sublist _).map _)
  have hsort : ((List.insertionSort jobCreatedLe
      (st.jobs.filter (jobQueryMatch now ignoredTasks))).map (fun j => j.id)).Nodup :=
    (((List.perm_insertionSort jobCreatedLe _).map (fun j => j.id)).nodup_iff).mpr hfil
  exact hsort.sublist ((applyLimit_sublist limit _).map _)

theorem stampFold_map_id (workerId : String) (now delay : Int)
    (acq l : List JobDoc) :
    ((acq.foldl
        (fun cur j => updateFirstJob j.id (stampJob workerId now delay j) cur) l).map
          (fun d => d.id))
      = l.map (fun d => d.id) := by
  induction acq generalizing l with
  | nil => rfl
  | cons j acq ih =>
    rw [List.foldl_cons, ih,
      updateFirstJob_map_id j.id (stampJob workerId now delay j) (fun d => rfl)]

/-- Every job-lifecycle step preserves state validity — in particular
the per-task counter invariant. -/
theorem step_preserves_valid {st st' : DataStore} (hv : ValidState st)
    (hs : Step st st') : ValidState st' := by
  obtain ⟨hjn, htn, hok⟩ := hv
  cases hs with
  | acquire workerId limit ignoredTasks now =>
    have hpool_nodup := candidateJobs_nodup_ids st limit ignoredTasks now hjn
    have hacq_sub_pool :=
      admitJobs_sublist (slotsLeft0 st) (candidateJobs st limit ignoredTasks now)
    have hacq_nodup : ((admitJobs (slotsLeft0 st)
        (candidateJobs st limit ignoredTasks now)).map (fun j => j.id)).Nodup :=
      hpool_nodup.sublist (hacq_sub_pool.map _)
    have hacq_sub : ∀ x ∈ admitJobs (slotsLeft0 st)
        (candidateJobs st limit ignoredTasks now), x ∈ st.jobs :=
      fun x hx => candidateJobs_subset st _ _ _ x (hacq_sub_pool.subset hx)
    refine ⟨?_, ?_, ?_⟩
    · rw [acquireJobs_jobs, stampFold_map_id]
      exact hjn
    · rw [acquireJobs_tasks, foldInc_eq_map _ _ htn, List.map_map]
      exact htn
    · intro t' ht'
      rw [acquireJobs_tasks, foldInc_eq_map _ _ htn] at ht'
      obtain ⟨t, ht, rfl⟩ := List.mem_map.mp ht'
      rcases hmax : t.maxRunningJobs with _ | m
      · simp [taskOk, hmax]
      · have hok_t := hok t ht
        simp only [taskOk, hmax, Bool.and_eq_true, decide_eq_true_eq] at hok_t
        have hfind := find?_task_of_mem_nodup st.tasks t ht htn
        have hslot : slotsLeft0 st t.id = some (m - t.runningJobs) := by
          simp [slotsLeft0, hfind, hmax]
        have hcle := admit_count_le (slotsLeft0 st)
          (candidateJobs st limit ignoredTasks now) t.id (m - t.runningJobs) hslot
          (by omega)
        have hstamp := stampFold_count_le workerId now st.lockExpirationDelay
          (admitJobs (slotsLeft0 st) (candidateJobs st limit ignoredTasks now))
          st.jobs t.id hjn hacq_nodup hacq_sub
        have hleq : leasedCount (acquireJobs st workerId limit ignoredTasks now).1 t.id
            ≤ leasedCount st t.id
              + ((admitJobs (slotsLeft0 st)
                  (candidateJobs st limit ignoredTasks now)).countP
                    fun j => j.taskId = t.id) := by
          show ((acquireJobs st workerId limit ignoredTasks now).1.jobs.countP _) ≤ _
          rw [acquireJobs_jobs]
          exact hstamp
        simp only [taskOk, hmax, Bool.and_eq_true, decide_eq_true_eq]
        constructor
        · omega
        · omega
  | release workerId taskId result j hjmem hid htask hacqj =>
    have hdel1 : (deleteOneJob result.jobId st.jobs).1 = 1 := by
      rw [deleteOneJob_fst, if_pos]
      exact List.any_eq_true.mpr ⟨j, hjmem, by simp [hid]⟩
    have hjobs' : (releaseJob st workerId taskId result).1.jobs
        = (deleteOneJob result.jobId st.jobs).2 := rfl
    have htasks' : (releaseJob st workerId taskId result).1.tasks
        = incRunningJobs taskId (-1) st.tasks := by
      show (if (deleteOneJob result.jobId st.jobs).1 > 0
          then (incRunningJobs taskId (-((deleteOneJob result.jobId st.jobs).1 : Int))
              st.tasks, ([] : List LogEntry))
          else (st.tasks, [LogEntry.jobNotFound result.jobId])).1 = _
      rw [hdel1]
      norm_num
    refine ⟨?_, ?_, ?_⟩
    · rw [hjobs']
      exact hjn.sublist ((deleteOneJob_snd_sublist _ _).map _)
    · rw [htasks', incRunningJobs_map_id]
      exact htn
    · intro t' ht'
      rw [htasks', incRunningJobs_eq_map _ _ _ htn] at ht'
      obtain ⟨t, ht, rfl⟩ := List.mem_map.mp ht'
      have hok_t := hok t ht
      by_cases hsame : t.id = taskId
      · rw [if_pos hsame]
        rcases hmax : t.maxRunningJobs with _ | m
        · simp [taskOk, hmax]
        · simp only [taskOk, hmax, Bool.and_eq_true, decide_eq_true_eq] at hok_t
          have hpj : ((fun d => decide (d.taskId = t.id) && d.acquiredBy.isSome) j)
              = true := by
            simp [htask, hsame, hacqj]
          have hc := countP_deleteOneJob result.jobId st.jobs
            (fun d => d.taskId = t.id && d.acquiredBy.isSome) j hjmem hid hjn
          rw [hpj] at hc
          rw [if_pos rfl] at hc
          simp only [taskOk, hmax, Bool.and_eq_true, decide_eq_true_eq]
          have hlv : leasedCount (releaseJob st workerId taskId result).1 t.id
              = ((deleteOneJob result.jobId st.jobs).2.countP
                  fun d => d.taskId = t.id && d.acquiredBy.isSome) := by
            show ((releaseJob st workerId taskId result).1.jobs.countP _) = _
            rw [hjobs']
          rw [hlv]
          have hlc : leasedCount st t.id
              = (st.jobs.countP fun d => d.taskId = t.id && d.acquiredBy.isSome) := rfl
          rw [hlc] at hok_t
          constructor
          · omega
          · omega
      · rw [if_neg hsame]
        rcases hmax : t.maxRunningJobs with _ | m
        · simp [taskOk, hmax]
        · simp only [taskOk, hmax, Bool.and_eq_true, decide_eq_true_eq] at hok_t
          have hne : ¬ j.taskId = t.id := by
            rw [htask]
            exact fun hcon => hsame hcon.symm
          have hpj : ((fun d => decide (d.taskId = t.id) && d.acquiredBy.isSome) j)
              = false := by
            simp [hne]
          have hc := countP_deleteOneJob result.jobId st.jobs
            (fun d => d.taskId = t.id && d.acquiredBy.isSome) j hjmem hid hjn
          rw [hpj] at hc
          simp only [Bool.false_eq_true, if_false] at hc
          simp only [taskOk, hmax, Bool.and_eq_true, decide_eq_true_eq]
          have hlv : leasedCount (releaseJob st workerId taskId result).1 t.id
              = ((deleteOneJob result.jobId st.jobs).2.countP
                  fun d => d.taskId = t.id && d.acquiredBy.isSome) := by
            show ((releaseJob st workerId taskId result).1.jobs.countP _) = _
            rw [hjobs']
          rw [hlv]
          have hlc : leasedCount st t.id
              = (st.jobs.countP fun d => d.taskId = t.id && d.acquiredBy.isSome) := rfl
          rw [hlc] at hok_t
          constructor
          · omega
          · omega
  | add j hfresh hunleased =>
    refine ⟨?_, htn, ?_⟩
    · simp only [addJob, List.map_append, List.map_cons, List.map_nil]
      rw [List.nodup_append]
      refine ⟨hjn, List.nodup_singleton _, ?_⟩
      intro a ha hb
      obtain ⟨j', hj', rfl⟩ := List.mem_map.mp ha
      have : j'.id = j.id := by simpa using hb
      exact hfresh j' hj' this
    · intro t ht
      have hok_t := hok t ht
      have hleq : leasedCount (addJob st j) t.id = leasedCount st t.id := by
        show ((st.jobs ++ [j]).countP _) = _
        rw [List.countP_append]
        simp only [List.countP_cons, List.countP_nil, hunleased, Option.isSome_none,
          Bool.and_false, Bool.false_eq_true, if_false]
        rfl
      rcases hmax : t.maxRunningJobs with _ | m
      · simp [taskOk, hmax]
      · simp only [taskOk, hmax, Bool.and_eq_true, decide_eq_true_eq] at hok_t ⊢
        rw [hleq]
        exact hok_t

theorem valid_of_reachable {st₀ st : DataStore} (h₀ : ValidState st₀)
    (h : Reachable st₀ st) : ValidState st := by
  induction h with
  | refl => exact h₀
  | step h hs ih => exact step_preserves_valid ih hs

/-! ## C3: the per-task concurrency ceiling invariant -/

/-- **C3.** Starting from a valid state, in every state reachable through
the single-threaded job lifecycle (`acquire_jobs` with any arguments,
`release_job` by the current lease holder with the job's task id,
`add_job` of a fresh unleased job), every task with
`max_running_jobs = N` satisfies `0 ≤ running_jobs ≤ N`, the number of
simultaneously lease-tagged jobs of the task is at most `N`, and any
`acquire_jobs` call from that state admits at most
`N - running_jobs` further jobs of the task. -/
theorem running_jobs_invariant (st₀ st : DataStore) (h₀ : ValidState st₀)
    (h : Reachable st₀ st) :
    ∀ t ∈ st.tasks, ∀ m : Int, t.maxRunningJobs = some m →
      0 ≤ t.runningJobs ∧ t.runningJobs ≤ m
        ∧ (leasedCount st t.id : Int) ≤ m
        ∧ ∀ (workerId : String) (limit : Option Nat)
            (ignoredTasks : Option (List String)) (now : Int),
            (((acquireJobs st workerId limit ignoredTasks now).2.1.countP
                fun j => j.taskId = t.id : Nat) : Int) ≤ m - t.runningJobs := by
  have hv := valid_of_reachable h₀ h
  obtain ⟨hjn, htn, hok⟩ := hv
  intro t ht m hm
  have hok_t := hok t ht
  simp only [taskOk, hm, Bool.and_eq_true, decide_eq_true_eq] at hok_t
  have hlower : (0 : Int) ≤ (leasedCount st t.id : Nat) := Int.natCast_nonneg _
  refine ⟨by omega, hok_t.2, by omega, ?_⟩
  intro workerId limit ignoredTasks now
  have hfind := find?_task_of_mem_nodup st.tasks t ht htn
  have hslot : slotsLeft0 st t.id = some (m - t.runningJobs) := by
    simp [slotsLeft0, hfind, hm]
  rw [acquireJobs_acquired]
  exact admit_count_le (slotsLeft0 st) (candidateJobs st limit ignoredTasks now)
    t.id (m - t.runningJobs) hslot (by omega)

/-- Witness for C3 on a concrete valid state (task capped at 2, one
leased job counted) via the trivial reachability chain. -/
theorem running_jobs_invariant_witness :
    let st : DataStore :=
      { tasks := [{ id := "t1", maxRunningJobs := some 2, runningJobs := 1 }],
        schedules := [],
        jobs := [{ id := 1, taskId := "t1", createdAt := 0, startedAt := some 0,
                   acquiredBy := some "W", acquiredUntil := some 10,
                   lockExpirationDelay := none }],
        jobResults := [], lockExpirationDelay := 10, serializeOk := fun _ => true }
    ValidState st
      ∧ ∀ t ∈ st.tasks, ∀ m : Int, t.maxRunningJobs = some m →
          0 ≤ t.runningJobs ∧ t.runningJobs ≤ m
            ∧ (leasedCount st t.id : Int) ≤ m
            ∧ ∀ (workerId : String) (limit : Option Nat)
                (ignoredTasks : Option (List String)) (now : Int),
                (((acquireJobs st workerId limit ignoredTasks now).2.1.countP
                    fun j => j.taskId = t.id : Nat) : Int) ≤ m - t.runningJobs :=
  ⟨by decide, running_jobs_invariant _ _ (by decide) (Reachable.refl _)⟩

end MongoStore
